import Mathlib

/-!
Verification of the takeit resolution core: attribute-key normalization
(`normalize_override_key`, `normalize_attrs`, `build_compare_key`), the
document value-resolution algorithm (`Document::get_value`), and the
collection load pipeline (`Collection::try_from`), shallowly embedded from
`src/collection/document.rs` and `src/collection/collection.rs`.

Rust `String`s are modelled as `List Char` (`Str`); `serde_json::Value` as
the inductive `ParamValue`; `HashMap`s as association lists (lookup finds
the first binding, insertion replaces the first binding). All definitions
are executable so concrete cases can be settled with `decide`.
-/

/-- Rust strings are modelled as lists of characters. -/
abbrev Str := List Char

/-- Conversion from a Lean string literal to the model's string type. -/
def lit (s : String) : Str := s.data

/-- Model of Rust `str::trim` (drop whitespace at both ends). -/
def trimStr (l : Str) : Str :=
  ((l.dropWhile Char.isWhitespace).reverse.dropWhile Char.isWhitespace).reverse

/-- Model of Rust `str::to_lowercase` (ASCII scope, as exercised here). -/
def toLowerStr (l : Str) : Str := l.map Char.toLower

/-- Splitting on `','`: every comma opens a new (possibly empty) segment.
This is Rust `str::split(',')`; the result is always nonempty. -/
def splitComma : Str → List Str
  | [] => [[]]
  | c :: cs =>
    match splitComma cs with
    | [] => [[c]]
    | t :: ts => if c = ',' then [] :: t :: ts else (c :: t) :: ts

/-- Model of Rust `str::split_terminator(',')`: like `splitComma` but a
trailing empty segment is dropped. -/
def splitTerm (l : Str) : List Str :=
  if (splitComma l).getLast? = some [] then (splitComma l).dropLast else splitComma l

/-- Model of Rust `str::split_once('=')`: split at the first `'='`. -/
def splitOnceEq : Str → Option (Str × Str)
  | [] => none
  | c :: cs =>
    if c = '=' then some ([], cs)
    else (splitOnceEq cs).map (fun p => (c :: p.1, p.2))

/-- Model of Rust `Vec::join(",")` over the segments. -/
def joinComma : List Str → Str
  | [] => []
  | [t] => t
  | t :: ts => t ++ ',' :: joinComma ts

/-- Byte-lexicographic order used by Rust's `Vec::<String>::sort()`. -/
def leStr : Str → Str → Bool
  | [], _ => true
  | _ :: _, [] => false
  | a :: as_, b :: bs => if a = b then leStr as_ bs else decide (a < b)

/-- The order `leStr` as a proposition, for use with Mathlib's sorting. -/
def LeStrP (a b : Str) : Prop := leStr a b = true

instance : DecidableRel LeStrP := fun a b => inferInstanceAs (Decidable (_ = true))

/-- Model of Rust `Vec::<String>::sort()`. -/
def sortStrs (l : List Str) : List Str := List.insertionSort LeStrP l

/-- Model of Rust `Vec::dedup` (removes consecutive duplicates). -/
def dedupAdj : List Str → List Str
  | [] => []
  | [x] => [x]
  | x :: y :: rest =>
    if x = y then dedupAdj (y :: rest) else x :: dedupAdj (y :: rest)

/-- The per-token canonicalizer inside `normalize_override_key`: a
`key=value` token is re-rendered with both sides trimmed, a bare token is
trimmed; the whole token is then lowercased. -/
def ensureTok (t : Str) : Str :=
  match splitOnceEq t with
  | none => toLowerStr (trimStr t)
  | some (k, v) => toLowerStr (trimStr k ++ '=' :: trimStr v)

/-- Model of `normalize_override_key` from `document.rs`: split on commas
(dropping a trailing empty token), canonicalize each token, sort, rejoin. -/
def normalize_override_key (value : Str) : Str :=
  joinComma (sortStrs ((splitTerm value).map ensureTok))

/-- Association-list model of `HashMap` lookup (`HashMap::get`). -/
def hmGet (m : List (Str × Str)) (k : Str) : Option Str :=
  (m.find? (fun kv => kv.1 == k)).map (fun kv => kv.2)

/-- Association-list model of `HashMap` insertion: replaces the first
binding of the key, or appends a new binding. -/
def hmInsert (m : List (Str × Str)) (k : Str) (v : Str) : List (Str × Str) :=
  match m with
  | [] => [(k, v)]
  | kv :: rest => if kv.1 = k then (k, v) :: rest else kv :: hmInsert rest k v

/-- Model of `normalize_attrs` from `document.rs`: render every pair as
`name=value` with the name trimmed and lowercased and the value trimmed
(lowercased when `to_lowercase` is set), sort the rendered pairs by their
full text, and join with commas. The input list stands for the iteration
of the Rust `HashMap`. -/
def normalize_attrs (attrs : List (Str × Str)) (to_lowercase : Bool) : Str :=
  joinComma (sortStrs (attrs.map (fun kv =>
    toLowerStr (trimStr kv.1) ++
      '=' :: (if to_lowercase then toLowerStr (trimStr kv.2) else trimStr kv.2))))

/-- Model of `build_compare_key` from `document.rs`. The Rust function
asserts `list_attrs.len() > 0` and panics otherwise; the panic is modelled
as `none`. Each listed attribute name is looked up in `attrs` by exact
(case-sensitive) key, a missing name contributing the empty value; the
collected map is rendered by `normalize_attrs`. -/
def build_compare_key (attrs : List (Str × Str)) (list_attrs : List Str)
    (to_lowercase : Bool) : Option Str :=
  if list_attrs = [] then none
  else some (normalize_attrs
    (list_attrs.foldl
      (fun m it => hmInsert m (toLowerStr it) ((hmGet attrs it).getD [])) [])
    to_lowercase)

/-- Model of `str2list_of_attrs` from `document.rs`: each authored order
string is split on commas (terminator-style), each name lowercased, the
group sorted and deduplicated. -/
def str2list_of_attrs (list_attrs : List Str) : List (List Str) :=
  list_attrs.map (fun it => dedupAdj (sortStrs ((splitTerm it).map toLowerStr)))

mutual
/-- Model of `serde_json::Value` (`ParamValue` in `document.rs`). Objects
carry association lists of fields (`PVFields`); numeric payloads are
integers, which is enough for the values exercised by this development.
The three types are mutually inductive so that decidable equality and
structural recursion are available. -/
inductive ParamValue where
  | null : ParamValue
  | bool (b : Bool) : ParamValue
  | num (n : Int) : ParamValue
  | str (s : Str) : ParamValue
  | arr (items : PVList) : ParamValue
  | obj (fields : PVFields) : ParamValue

/-- A list of JSON values (payload of `ParamValue.arr`). -/
inductive PVList where
  | nil : PVList
  | cons (v : ParamValue) (rest : PVList) : PVList

/-- The field list of a JSON object, in insertion order. -/
inductive PVFields where
  | nil : PVFields
  | cons (k : Str) (v : ParamValue) (rest : PVFields) : PVFields
end

deriving instance DecidableEq for ParamValue

/-- The `serde_json::json!({})` sentinel used by `get_value`. -/
def emptyObj : ParamValue := ParamValue.obj PVFields.nil

/-- Lookup of a field in a JSON object's field list. -/
def objGet (m : PVFields) (k : Str) : Option ParamValue :=
  match m with
  | .nil => none
  | .cons k' v rest => if k' = k then some v else objGet rest k

/-- Removal of every binding of a field from a JSON object's field list
(`Map::remove`). -/
def objRemove (m : PVFields) (k : Str) : PVFields :=
  match m with
  | .nil => .nil
  | .cons k' v rest =>
    if k' = k then objRemove rest k else .cons k' v (objRemove rest k)

/-- Setting a field of a JSON object's field list: replaces the first
binding, or appends. -/
def objSet (m : PVFields) (k : Str) (v : ParamValue) : PVFields :=
  match m with
  | .nil => .cons k v .nil
  | .cons k' v' rest =>
    if k' = k then .cons k v rest else .cons k' v' (objSet rest k v)

mutual
/-- Model of the external `json_patch::merge` called by `get_value`
(RFC 7386 JSON Merge Patch): a non-object patch replaces the target
wholesale; an object patch is applied field by field to the target
(coerced to an empty object when it is not one), a `null` field removing
the key and any other field being merged recursively. -/
def mergePatch (doc patch : ParamValue) : ParamValue :=
  match patch with
  | ParamValue.obj pf =>
    ParamValue.obj (mergeFields (match doc with
      | ParamValue.obj f => f
      | _ => PVFields.nil) pf)
  | p => p

/-- Field-by-field application of an object patch (the loop body of
`json_patch::merge`). -/
def mergeFields (base : PVFields) (pf : PVFields) : PVFields :=
  match pf with
  | PVFields.nil => base
  | PVFields.cons k v rest =>
    if v = ParamValue.null then mergeFields (objRemove base k) rest
    else mergeFields (objSet base k (mergePatch ((objGet base k).getD ParamValue.null) v)) rest
end

/-- Model of `DocumentValueType` (`parameter_type` in the schema). -/
inductive DocumentValueType where
  | array | boolean | hash | number | json | yaml | string
deriving DecidableEq

/-- Model of `OverrideV2`: one entry of the override table. `omitFlag`
models the source field `omit` (a Lean keyword). -/
structure OverrideV2 where
  omitFlag : Bool
  value : ParamValue
deriving DecidableEq

/-- Lookup in the override table (`DocumentOverrides` is a `HashMap` from
canonical key to entry; modelled as an association list). -/
def ovGet (m : List (Str × OverrideV2)) (k : Str) : Option OverrideV2 :=
  (m.find? (fun kv => kv.1 == k)).map (fun kv => kv.2)

/-- Model of `Document` from `document.rs` (fields in source order). -/
structure Document where
  description : Str
  default_value : ParamValue
  enabled : Bool
  value_type : DocumentValueType
  name : Str
  collection : Str
  omitFlag : Bool
  merge_default : Bool
  merge_overrides : Bool
  overrides : List (Str × OverrideV2)
  order_list : List (List Str)
  hidden_value : Option Bool
  validator_rule : Option Str
  validator_type : Option Str

/-- The `is_hash` test of `get_value`: the composite value types. -/
def isHashType (t : DocumentValueType) : Bool :=
  [DocumentValueType.hash, DocumentValueType.json, DocumentValueType.yaml].contains t

/-- The seed of `get_value`'s accumulator: the default value when
`merge_default` is set on a composite document, else the empty-object
sentinel. -/
def seedValue (d : Document) : ParamValue :=
  if d.merge_default && isHashType d.value_type then d.default_value else emptyObj

/-- The scanning loop of `get_value` over the remaining match groups.
`none` models the panic of `build_compare_key` on an empty group. In merge
mode a matching non-`omit` entry is merge-patched into the accumulator and
the scan continues; otherwise a matching entry's value is returned at once
(the `break`). -/
def scanOverrides (d : Document) (attrs : List (Str × Str)) (need_merge : Bool) :
    ParamValue → List (List Str) → Option ParamValue
  | value, [] => some value
  | value, g :: gs =>
    match build_compare_key attrs g true with
    | none => none
    | some key =>
      match ovGet d.overrides key with
      | some m =>
        if need_merge then
          scanOverrides d attrs need_merge
            (if m.omitFlag then value else mergePatch value m.value) gs
        else some m.value
      | none => scanOverrides d attrs need_merge value gs

/-- Model of `Document::get_value`: seed the accumulator, scan the order
list, and return the default value when the accumulator is still the
empty-object sentinel. `none` models a panic. -/
def get_value (d : Document) (attrs : List (Str × Str)) : Option ParamValue :=
  (scanOverrides d attrs (d.merge_overrides && isHashType d.value_type)
      (seedValue d) d.order_list).map
    (fun value => if value = emptyObj then d.default_value else value)

/-- The first override entry matched by the scan (spec-side helper used to
state first-match-wins): the entry of the first group whose compare key is
present in the override table. -/
def firstMatchIn (d : Document) (attrs : List (Str × Str)) :
    List (List Str) → Option OverrideV2
  | [] => none
  | g :: gs =>
    match (build_compare_key attrs g true).bind (fun k => ovGet d.overrides k) with
    | some b => some b
    | none => firstMatchIn d attrs gs

/-- All override entries matched by the scan, in tier order (spec-side
helper used to state merge-mode accumulation). -/
def matchedIn (d : Document) (attrs : List (Str × Str)) :
    List (List Str) → List OverrideV2
  | [] => []
  | g :: gs =>
    match (build_compare_key attrs g true).bind (fun k => ovGet d.overrides k) with
    | some b => b :: matchedIn d attrs gs
    | none => matchedIn d attrs gs

/-- Model of `DocumentError` from `document.rs` (payloads reduced to
messages). -/
inductive DocumentError where
  | stdIoError (msg : Str)
  | parseError (msg : Str)
  | contentError (msg : Str)
deriving DecidableEq

/-- Model of `CollectionError` from `collection.rs`. -/
inductive CollectionError where
  | documentError (e : DocumentError)
  | documentNotFound (collection name : Str)
  | documentsNotFound
  | collectionNotFound (collection : Str)

/-- One file met by the directory walk: its file name and the outcome of
the external parser (`Document::try_from`), which is a collaborator of the
core and is therefore given, not computed. -/
structure FileEntry where
  fname : Str
  parsed : Except DocumentError Document

/-- The file filter of the walk: name ends in `.yml` or `.yaml` and does
not start with `.`. -/
def isDefFileName (f : Str) : Bool :=
  (List.isSuffixOf (lit ".yml") f || List.isSuffixOf (lit ".yaml") f)
    && !(List.isPrefixOf (lit ".") f)

/-- Model of the `Collection` store: documents grouped by collection name. -/
structure Collection where
  documents : List (Str × List Document)

/-- `Collection::total_documents`. -/
def totalDocuments (c : Collection) : Nat :=
  (c.documents.map (fun kv => kv.2.length)).sum

/-- The `entry(..).or_insert(..).push(doc)` step of the walk: append the
document to its collection's list, creating the list on first use. -/
def colPush (m : List (Str × List Document)) (d : Document) : List (Str × List Document) :=
  match m with
  | [] => [(d.collection, [d])]
  | kv :: rest =>
    if kv.1 = d.collection then (kv.1, kv.2 ++ [d]) :: rest else kv :: colPush rest d

/-- The walk loop of `Collection::try_from`: visit entries in order; a
qualifying file that parses is pushed (and counted); a qualifying file
that fails aborts the load unless `ignore_bad` is set, in which case it is
skipped. -/
def loadWalk : List FileEntry → Bool → Collection → Nat → Except CollectionError (Collection × Nat)
  | [], _, acc, total => Except.ok (acc, total)
  | e :: es, ignore_bad, acc, total =>
    if isDefFileName e.fname then
      match e.parsed with
      | Except.ok doc => loadWalk es ignore_bad ⟨colPush acc.documents doc⟩ (total + 1)
      | Except.error err =>
        if ignore_bad then loadWalk es ignore_bad acc total
        else Except.error (CollectionError.documentError err)
    else loadWalk es ignore_bad acc total

/-- Model of `Collection::try_from((path, ignore_bad))`: run the walk from
an empty store; if zero documents were counted, fail with
`DocumentsNotFound`. -/
def collectionTryFrom (entries : List FileEntry) (ignore_bad : Bool) :
    Except CollectionError Collection :=
  match loadWalk entries ignore_bad ⟨[]⟩ 0 with
  | Except.error e => Except.error e
  | Except.ok (c, total) =>
    if total = 0 then Except.error CollectionError.documentsNotFound else Except.ok c

/-- The number of qualifying entries whose parse succeeded (spec-side
helper: how many documents the walk can load). -/
def goodCount (entries : List FileEntry) : Nat :=
  (entries.filter (fun e => isDefFileName e.fname && e.parsed.toBool)).length

/-! Order-theoretic facts about `leStr`, the comparator behind
`Vec::<String>::sort()`. -/

theorem leStr_refl (a : Str) : leStr a a = true := by
  induction a with
  | nil => rfl
  | cons c cs ih => simp [leStr, ih]

theorem leStr_total (a b : Str) : leStr a b = true ∨ leStr b a = true := by
  induction a generalizing b with
  | nil => exact Or.inl rfl
  | cons c cs ih =>
    cases b with
    | nil => exact Or.inr rfl
    | cons d ds =>
      by_cases h : c = d
      · subst h
        rcases ih ds with h' | h'
        · exact Or.inl (by simp [leStr, h'])
        · exact Or.inr (by simp [leStr, h'])
      · rcases lt_or_gt_of_ne h with hlt | hgt
        · exact Or.inl (by simp [leStr, h, hlt])
        · exact Or.inr (by simp [leStr, Ne.symm h, hgt])

theorem leStr_trans : ∀ {a b c : Str}, leStr a b = true → leStr b c = true → leStr a c = true := by
  intro a
  induction a with
  | nil => intro b c _ _; rfl
  | cons x xs ih =>
    intro b c h1 h2
    cases b with
    | nil => simp [leStr] at h1
    | cons y ys =>
      cases c with
      | nil => simp [leStr] at h2
      | cons z zs =>
        by_cases hxy : x = y <;> by_cases hyz : y = z
        · subst hxy; subst hyz
          simp only [leStr, if_pos rfl] at h1 h2 ⊢
          exact ih h1 h2
        · subst hxy
          simp only [leStr, if_pos rfl] at h1
          simp only [leStr, if_neg hyz, decide_eq_true_eq] at h2
          simp [leStr, if_neg (ne_of_lt h2), h2]
        · subst hyz
          simp only [leStr, if_neg hxy, decide_eq_true_eq] at h1
          simp [leStr, if_neg hxy, h1]
        · simp only [leStr, if_neg hxy, decide_eq_true_eq] at h1
          simp only [leStr, if_neg hyz, decide_eq_true_eq] at h2
          have hxz := lt_trans h1 h2
          simp [leStr, if_neg (ne_of_lt hxz), hxz]

theorem leStr_antisymm : ∀ {a b : Str}, leStr a b = true → leStr b a = true → a = b := by
  intro a
  induction a with
  | nil =>
    intro b _ h2
    cases b with
    | nil => rfl
    | cons d ds => simp [leStr] at h2
  | cons x xs ih =>
    intro b h1 h2
    cases b with
    | nil => simp [leStr] at h1
    | cons y ys =>
      by_cases hxy : x = y
      · subst hxy
        simp only [leStr, if_pos rfl] at h1 h2
        exact congrArg (x :: ·) (ih h1 h2)
      · simp only [leStr, if_neg hxy, decide_eq_true_eq] at h1
        simp only [leStr, if_neg (Ne.symm hxy), decide_eq_true_eq] at h2
        exact absurd h2 (lt_asymm h1)

instance : IsTotal Str LeStrP := ⟨leStr_total⟩

instance : IsTrans Str LeStrP := ⟨fun _ _ _ => leStr_trans⟩

instance : IsAntisymm Str LeStrP := ⟨fun _ _ => leStr_antisymm⟩

theorem sortStrs_perm (l : List Str) : (sortStrs l).Perm l :=
  List.perm_insertionSort LeStrP l

theorem sortStrs_sorted (l : List Str) : (sortStrs l).Sorted LeStrP :=
  List.sorted_insertionSort LeStrP l

theorem sortStrs_congr_perm {l₁ l₂ : List Str} (h : l₁.Perm l₂) :
    sortStrs l₁ = sortStrs l₂ :=
  List.eq_of_perm_of_sorted
    ((sortStrs_perm l₁).trans (h.trans (sortStrs_perm l₂).symm))
    (sortStrs_sorted l₁) (sortStrs_sorted l₂)

theorem sortStrs_of_sorted {l : List Str} (h : l.Sorted LeStrP) : sortStrs l = l :=
  List.Sorted.insertionSort_eq h

theorem sortStrs_idem (l : List Str) : sortStrs (sortStrs l) = sortStrs l :=
  sortStrs_of_sorted (sortStrs_sorted l)
theorem char_toNat_ofNat {n : Nat} (h : n < 55296) : (Char.ofNat n).toNat = n := by
  rw [Char.ofNat, dif_pos (Or.inl h : Nat.isValidChar n)]
  simp [Char.ofNatAux, Char.toNat, UInt32.toNat]

theorem char_toLower_def (c : Char) :
    Char.toLower c = if 65 ≤ c.toNat ∧ c.toNat ≤ 90 then Char.ofNat (c.toNat + 32) else c := rfl

theorem char_toLower_idem (c : Char) : Char.toLower (Char.toLower c) = Char.toLower c := by
  by_cases h : 65 ≤ c.toNat ∧ c.toNat ≤ 90
  · rw [char_toLower_def c, if_pos h]
    have ht : (Char.ofNat (c.toNat + 32)).toNat = c.toNat + 32 := char_toNat_ofNat (by omega)
    rw [char_toLower_def, ht, if_neg (by omega)]
  · rw [char_toLower_def c, if_neg h, char_toLower_def c, if_neg h]

theorem char_isWhitespace_false_of_upper {c : Char} (h : 65 ≤ c.toNat) :
    c.isWhitespace = false := by
  simp only [Char.isWhitespace, Bool.or_eq_false_iff, decide_eq_false_iff_not]
  refine ⟨⟨⟨fun e => ?_, fun e => ?_⟩, fun e => ?_⟩, fun e => ?_⟩ <;>
    (subst e; exact absurd h (by decide))

theorem char_toLower_isWhitespace (c : Char) :
    (Char.toLower c).isWhitespace = c.isWhitespace := by
  by_cases h : 65 ≤ c.toNat ∧ c.toNat ≤ 90
  · rw [char_toLower_def c, if_pos h]
    have ht : (Char.ofNat (c.toNat + 32)).toNat = c.toNat + 32 := char_toNat_ofNat (by omega)
    rw [char_isWhitespace_false_of_upper (by rw [ht]; omega),
      char_isWhitespace_false_of_upper (c := c) (by omega)]
  · rw [char_toLower_def c, if_neg h]

theorem char_toLower_eq_low {c t : Char} (ht : t.toNat < 97)
    (h : Char.toLower c = t) : c = t := by
  by_cases hu : 65 ≤ c.toNat ∧ c.toNat ≤ 90
  · rw [char_toLower_def c, if_pos hu] at h
    have := congrArg Char.toNat h
    rw [char_toNat_ofNat (by omega)] at this
    omega
  · rwa [char_toLower_def c, if_neg hu] at h

theorem char_toLower_of_low {c : Char} (h : c.toNat < 65) : Char.toLower c = c := by
  rw [char_toLower_def c, if_neg (by omega)]

/-! Facts about `trimStr` and `toLowerStr`. -/

theorem head?_dropWhile_not_pos {p : Char → Bool} :
    ∀ {l : Str} {c : Char}, (l.dropWhile p).head? = some c → p c = false := by
  intro l
  induction l with
  | nil => intro c h; simp at h
  | cons x xs ih =>
    intro c h
    rw [List.dropWhile_cons] at h
    by_cases hx : p x = true
    · rw [if_pos hx] at h; exact ih h
    · rw [if_neg hx] at h
      simp at h
      rw [← h]
      exact Bool.eq_false_iff.mpr hx

theorem dropWhile_eq_self_of_head {p : Char → Bool} {l : Str}
    (h : ∀ c, l.head? = some c → p c = false) : l.dropWhile p = l := by
  cases l with
  | nil => rfl
  | cons x xs =>
    rw [List.dropWhile_cons, if_neg]
    rw [h x rfl]
    simp

theorem mem_trimStr {c : Char} {l : Str} (h : c ∈ trimStr l) : c ∈ l := by
  rw [trimStr] at h
  rw [List.mem_reverse] at h
  have h1 := ((List.dropWhile_suffix _).sublist).mem h
  rw [List.mem_reverse] at h1
  exact ((List.dropWhile_suffix _).sublist).mem h1

theorem trimStr_head? {l : Str} {c : Char} (h : (trimStr l).head? = some c) :
    c.isWhitespace = false := by
  rw [trimStr, List.head?_reverse] at h
  obtain ⟨u, hu⟩ := List.dropWhile_suffix (l := (l.dropWhile Char.isWhitespace).reverse)
      Char.isWhitespace
  have hv : ((l.dropWhile Char.isWhitespace).reverse).getLast? = some c := by
    rw [← hu, List.getLast?_append, h]; rfl
  rw [List.getLast?_reverse] at hv
  exact head?_dropWhile_not_pos hv

theorem trimStr_getLast? {l : Str} {c : Char} (h : (trimStr l).getLast? = some c) :
    c.isWhitespace = false := by
  rw [trimStr, List.getLast?_reverse] at h
  exact head?_dropWhile_not_pos h

theorem trimStr_eq_self {l : Str}
    (h1 : ∀ c, l.head? = some c → c.isWhitespace = false)
    (h2 : ∀ c, l.getLast? = some c → c.isWhitespace = false) : trimStr l = l := by
  rw [trimStr, dropWhile_eq_self_of_head h1, dropWhile_eq_self_of_head, List.reverse_reverse]
  intro c hc
  rw [List.head?_reverse] at hc
  exact h2 c hc

theorem trimStr_idem (l : Str) : trimStr (trimStr l) = trimStr l :=
  trimStr_eq_self (fun _ h => trimStr_head? h) (fun _ h => trimStr_getLast? h)

theorem toLowerStr_idem (l : Str) : toLowerStr (toLowerStr l) = toLowerStr l := by
  simp only [toLowerStr, List.map_map]
  exact List.map_congr_left (fun a _ => char_toLower_idem a)

theorem trimStr_toLowerStr_trimStr (s : Str) :
    trimStr (toLowerStr (trimStr s)) = toLowerStr (trimStr s) := by
  apply trimStr_eq_self
  · intro c hc
    rw [toLowerStr, List.head?_map] at hc
    cases hh : (trimStr s).head? with
    | none => rw [hh] at hc; simp at hc
    | some d =>
      rw [hh] at hc
      simp at hc
      rw [← hc, char_toLower_isWhitespace]
      exact trimStr_head? hh
  · intro c hc
    rw [toLowerStr, List.getLast?_map] at hc
    cases hh : (trimStr s).getLast? with
    | none => rw [hh] at hc; simp at hc
    | some d =>
      rw [hh] at hc
      simp at hc
      rw [← hc, char_toLower_isWhitespace]
      exact trimStr_getLast? hh

/-! Facts about `splitOnceEq`, `splitComma`, `splitTerm` and `joinComma`. -/

theorem splitOnceEq_eq_none_iff {t : Str} : splitOnceEq t = none ↔ '=' ∉ t := by
  induction t with
  | nil => simp [splitOnceEq]
  | cons c cs ih =>
    by_cases h : c = '='
    · subst h
      simp [splitOnceEq]
    · simp only [splitOnceEq, if_neg h, Option.map_eq_none', ih, List.mem_cons]
      constructor
      · rintro hn (he | he)
        · exact h he.symm
        · exact hn he
      · intro hn he
        exact hn (Or.inr he)

theorem splitOnceEq_eq_some {t k v : Str} (h : splitOnceEq t = some (k, v)) :
    t = k ++ '=' :: v ∧ '=' ∉ k := by
  induction t generalizing k v with
  | nil => simp [splitOnceEq] at h
  | cons c cs ih =>
    by_cases hc : c = '='
    · subst hc
      rw [splitOnceEq, if_pos rfl] at h
      simp only [Option.some_inj, Prod.mk.injEq] at h
      rw [← h.1, ← h.2]
      exact ⟨rfl, List.not_mem_nil '='⟩
    · simp only [splitOnceEq, if_neg hc] at h
      cases hs : splitOnceEq cs with
      | none => rw [hs] at h; simp at h
      | some p =>
        rw [hs] at h
        simp only [Option.map_some', Option.some_inj, Prod.mk.injEq] at h
        obtain ⟨k', v'⟩ := p
        obtain ⟨hs1, hs2⟩ := ih hs
        rcases h with ⟨h1, h2⟩
        simp only at h1 h2
        rw [← h1, ← h2]
        constructor
        · simp [hs1]
        · intro hm
          rcases List.mem_cons.mp hm with he | he
          · exact hc he.symm
          · exact hs2 he

theorem splitOnceEq_append {k v : Str} (h : '=' ∉ k) :
    splitOnceEq (k ++ '=' :: v) = some (k, v) := by
  induction k with
  | nil => simp [splitOnceEq]
  | cons c cs ih =>
    have hc : c ≠ '=' := fun e => h (e ▸ List.mem_cons_self c cs)
    have hcs : '=' ∉ cs := fun e => h (List.mem_cons_of_mem c e)
    rw [List.cons_append, splitOnceEq, if_neg hc, ih hcs]
    rfl

theorem splitComma_cons_eq {c : Char} {cs t : Str} {ts : List Str}
    (h : splitComma cs = t :: ts) :
    splitComma (c :: cs) = if c = ',' then [] :: t :: ts else (c :: t) :: ts := by
  rw [splitComma, h]

theorem splitComma_ne_nil (l : Str) : splitComma l ≠ [] := by
  induction l with
  | nil => simp [splitComma]
  | cons c cs ih =>
    cases h : splitComma cs with
    | nil => exact absurd h ih
    | cons t ts =>
      rw [splitComma_cons_eq h]
      by_cases hc : c = ','
      · rw [if_pos hc]; simp
      · rw [if_neg hc]; simp

theorem not_comma_mem_splitComma : ∀ {l : Str} {t : Str}, t ∈ splitComma l → ',' ∉ t := by
  intro l
  induction l with
  | nil =>
    intro t ht
    simp [splitComma] at ht
    simp [ht]
  | cons c cs ih =>
    intro t ht
    cases h : splitComma cs with
    | nil => exact absurd h (splitComma_ne_nil cs)
    | cons t' ts' =>
      rw [splitComma_cons_eq h] at ht
      by_cases hc : c = ','
      · rw [if_pos hc] at ht
        rcases List.mem_cons.mp ht with he | he
        · subst he; simp
        · exact ih (h ▸ he)
      · rw [if_neg hc] at ht
        rcases List.mem_cons.mp ht with he | he
        · subst he
          intro hm
          rcases List.mem_cons.mp hm with he' | he'
          · exact hc he'.symm
          · exact ih (h ▸ List.mem_cons_self t' ts') he'
        · exact ih (h ▸ List.mem_cons_of_mem t' he)

theorem splitComma_no_comma : ∀ {t : Str}, ',' ∉ t → splitComma t = [t] := by
  intro t
  induction t with
  | nil => intro _; rfl
  | cons c cs ih =>
    intro h
    have hc : c ≠ ',' := fun e => h (e ▸ List.mem_cons_self c cs)
    have hcs : ',' ∉ cs := fun e => h (List.mem_cons_of_mem c e)
    rw [splitComma_cons_eq (ih hcs), if_neg hc]

theorem splitComma_append {t r : Str} (h : ',' ∉ t) :
    splitComma (t ++ ',' :: r) = t :: splitComma r := by
  induction t with
  | nil =>
    rw [List.nil_append]
    cases hr : splitComma r with
    | nil => exact absurd hr (splitComma_ne_nil r)
    | cons t' ts' => rw [splitComma_cons_eq hr, if_pos rfl]
  | cons c cs ih =>
    have hc : c ≠ ',' := fun e => h (e ▸ List.mem_cons_self c cs)
    have hcs : ',' ∉ cs := fun e => h (List.mem_cons_of_mem c e)
    rw [List.cons_append]
    cases hm : splitComma (cs ++ ',' :: r) with
    | nil => exact absurd hm (splitComma_ne_nil _)
    | cons u us =>
      have := ih hcs
      rw [hm] at this
      rw [splitComma_cons_eq hm, if_neg hc]
      rw [List.cons.injEq] at this
      rw [this.1, this.2]

theorem joinComma_cons {t : Str} {ts : List Str} (h : ts ≠ []) :
    joinComma (t :: ts) = t ++ ',' :: joinComma ts := by
  cases ts with
  | nil => exact absurd rfl h
  | cons t' ts' => rfl

theorem splitComma_joinComma : ∀ {ts : List Str}, (∀ t ∈ ts, ',' ∉ t) → ts ≠ [] →
    splitComma (joinComma ts) = ts := by
  intro ts
  induction ts with
  | nil => intro _ h; exact absurd rfl h
  | cons t ts' ih =>
    intro hmem _
    cases ts' with
    | nil =>
      show splitComma (joinComma [t]) = [t]
      rw [joinComma]
      exact splitComma_no_comma (hmem t (List.mem_cons_self t []))
    | cons u us =>
      rw [joinComma_cons (by simp), splitComma_append (hmem t (List.mem_cons_self t _)),
        ih (fun x hx => hmem x (List.mem_cons_of_mem t hx)) (by simp)]

theorem splitTerm_joinComma {ts : List Str} (hmem : ∀ t ∈ ts, ',' ∉ t) (hne : ts ≠ [])
    (hlast : ts.getLast? ≠ some []) : splitTerm (joinComma ts) = ts := by
  rw [splitTerm, splitComma_joinComma hmem hne, if_neg hlast]

/-! Facts about `ensureTok`, the token canonicalizer. -/

theorem toLowerStr_append_eq (a b : Str) :
    toLowerStr (a ++ '=' :: b) = toLowerStr a ++ '=' :: toLowerStr b := by
  rw [toLowerStr, List.map_append, List.map_cons,
    show Char.toLower '=' = '=' from by decide]
  rfl

theorem mem_ensureTok {c : Char} {t : Str} (h : c ∈ ensureTok t) :
    c = '=' ∨ ∃ d, d ∈ t ∧ c = Char.toLower d := by
  cases hs : splitOnceEq t with
  | none =>
    have he : ensureTok t = toLowerStr (trimStr t) := by rw [ensureTok, hs]
    rw [he] at h
    obtain ⟨d, hd, hdc⟩ := List.mem_map.mp h
    exact Or.inr ⟨d, mem_trimStr hd, hdc.symm⟩
  | some p =>
    obtain ⟨k, v⟩ := p
    obtain ⟨ht, _⟩ := splitOnceEq_eq_some hs
    have he : ensureTok t = toLowerStr (trimStr k ++ '=' :: trimStr v) := by
      rw [ensureTok, hs]
    rw [he] at h
    obtain ⟨d, hd, hdc⟩ := List.mem_map.mp h
    rcases List.mem_append.mp hd with hdk | hdv
    · refine Or.inr ⟨d, ?_, hdc.symm⟩
      rw [ht]
      exact List.mem_append_left _ (mem_trimStr hdk)
    · rcases List.mem_cons.mp hdv with he' | hv
      · subst he'
        rw [show Char.toLower '=' = '=' from by decide] at hdc
        exact Or.inl hdc.symm
      · refine Or.inr ⟨d, ?_, hdc.symm⟩
        rw [ht]
        exact List.mem_append_right _ (List.mem_cons_of_mem _ (mem_trimStr hv))

theorem ensureTok_no_comma {t : Str} (h : ',' ∉ t) : ',' ∉ ensureTok t := by
  intro hm
  rcases mem_ensureTok hm with he | ⟨d, hd, he⟩
  · exact absurd he (by decide)
  · have hd' : d = ',' := char_toLower_eq_low (by decide) he.symm
    exact h (hd' ▸ hd)

theorem eq_not_mem_toLowerStr_trim {s : Str} (h : '=' ∉ s) :
    '=' ∉ toLowerStr (trimStr s) := by
  intro hm
  obtain ⟨d, hd, hdc⟩ := List.mem_map.mp hm
  have : d = '=' := char_toLower_eq_low (by decide) hdc
  exact h (this ▸ mem_trimStr hd)

theorem ensureTok_idem (t : Str) : ensureTok (ensureTok t) = ensureTok t := by
  cases hs : splitOnceEq t with
  | none =>
    have hne : '=' ∉ t := splitOnceEq_eq_none_iff.mp hs
    have he : ensureTok t = toLowerStr (trimStr t) := by rw [ensureTok, hs]
    have h2 : splitOnceEq (toLowerStr (trimStr t)) = none :=
      splitOnceEq_eq_none_iff.mpr (eq_not_mem_toLowerStr_trim hne)
    rw [he]
    have he2 : ensureTok (toLowerStr (trimStr t)) =
        toLowerStr (trimStr (toLowerStr (trimStr t))) := by rw [ensureTok, h2]
    rw [he2, trimStr_toLowerStr_trimStr, toLowerStr_idem]
  | some p =>
    obtain ⟨k, v⟩ := p
    obtain ⟨_, hk⟩ := splitOnceEq_eq_some hs
    have he0 : ensureTok t = toLowerStr (trimStr k ++ '=' :: trimStr v) := by
      rw [ensureTok, hs]
    have he : ensureTok t = toLowerStr (trimStr k) ++ '=' :: toLowerStr (trimStr v) := by
      rw [he0, toLowerStr_append_eq]
    have hKne : '=' ∉ toLowerStr (trimStr k) := eq_not_mem_toLowerStr_trim hk
    have hsp : splitOnceEq (toLowerStr (trimStr k) ++ '=' :: toLowerStr (trimStr v)) =
        some (toLowerStr (trimStr k), toLowerStr (trimStr v)) := splitOnceEq_append hKne
    rw [he]
    have he2 : ensureTok (toLowerStr (trimStr k) ++ '=' :: toLowerStr (trimStr v)) =
        toLowerStr (trimStr (toLowerStr (trimStr k)) ++ '=' :: trimStr (toLowerStr (trimStr v))) := by
      rw [ensureTok, hsp]
    rw [he2, trimStr_toLowerStr_trimStr, trimStr_toLowerStr_trimStr,
      toLowerStr_append_eq, toLowerStr_idem, toLowerStr_idem]

theorem list_map_eq_self {α : Type} {f : α → α} {l : List α}
    (h : ∀ a ∈ l, f a = a) : l.map f = l := by
  induction l with
  | nil => rfl
  | cons a as ih =>
    rw [List.map_cons, h a (List.mem_cons_self a as),
      ih (fun b hb => h b (List.mem_cons_of_mem a hb))]

theorem sorted_getLast?_ge :
    ∀ {l : List Str}, l.Sorted LeStrP → ∀ {a}, a ∈ l → ∀ {m}, l.getLast? = some m →
      leStr a m = true := by
  intro l
  induction l with
  | nil => intro _ a ha; simp at ha
  | cons x xs ih =>
    intro hs a ha m hm
    cases xs with
    | nil =>
      simp at ha hm
      subst ha; subst hm
      exact leStr_refl a
    | cons y ys =>
      rw [List.getLast?_cons_cons] at hm
      rw [List.sorted_cons] at hs
      rcases List.mem_cons.mp ha with rfl | hxs
      · exact hs.1 m (List.mem_of_getLast?_eq_some hm)
      · exact ih hs.2 hxs hm

theorem mem_splitTerm {t : Str} {l : Str} (ht : t ∈ splitTerm l) : t ∈ splitComma l := by
  rw [splitTerm] at ht
  by_cases h : (splitComma l).getLast? = some []
  · rw [if_pos h] at ht
    exact List.Sublist.mem ht (List.dropLast_sublist _)
  · rwa [if_neg h] at ht

theorem normalize_override_key_idem_of (x : Str)
    (H : ((splitTerm x).map ensureTok).length ≤ 1 ∨
      ∃ t ∈ (splitTerm x).map ensureTok, t ≠ []) :
    normalize_override_key (normalize_override_key x) = normalize_override_key x := by
  by_cases hex : ∃ t ∈ (splitTerm x).map ensureTok, t ≠ []
  · obtain ⟨t₀, ht₀m, ht₀⟩ := hex
    have hperm : (sortStrs ((splitTerm x).map ensureTok)).Perm ((splitTerm x).map ensureTok) :=
      sortStrs_perm _
    have hts_ne : sortStrs ((splitTerm x).map ensureTok) ≠ [] := by
      intro h0
      have hlen := hperm.length_eq
      rw [h0] at hlen
      have : (splitTerm x).map ensureTok = [] := List.length_eq_zero.mp hlen.symm
      rw [this] at ht₀m
      simp at ht₀m
    obtain ⟨m, hm⟩ := Option.isSome_iff_exists.mp (List.getLast?_isSome.mpr hts_ne)
    have hm_ne : m ≠ [] := by
      have ht₀s : t₀ ∈ sortStrs ((splitTerm x).map ensureTok) := hperm.mem_iff.mpr ht₀m
      have hle := sorted_getLast?_ge (sortStrs_sorted _) ht₀s hm
      intro hm0
      rw [hm0] at hle
      cases t₀ with
      | nil => exact ht₀ rfl
      | cons c cs => simp [leStr] at hle
    have hcf : ∀ t ∈ sortStrs ((splitTerm x).map ensureTok), ',' ∉ t := by
      intro t htm
      obtain ⟨t₁, ht₁, rfl⟩ := List.mem_map.mp (hperm.mem_iff.mp htm)
      exact ensureTok_no_comma (not_comma_mem_splitComma (mem_splitTerm ht₁))
    have hlast_ne : (sortStrs ((splitTerm x).map ensureTok)).getLast? ≠ some [] := by
      rw [hm]
      intro hcontra
      exact hm_ne (Option.some_inj.mp hcontra)
    have key1 : splitTerm (joinComma (sortStrs ((splitTerm x).map ensureTok))) =
        sortStrs ((splitTerm x).map ensureTok) :=
      splitTerm_joinComma hcf hts_ne hlast_ne
    have key2 : (sortStrs ((splitTerm x).map ensureTok)).map ensureTok =
        sortStrs ((splitTerm x).map ensureTok) := by
      apply list_map_eq_self
      intro a ha
      obtain ⟨t₁, _, rfl⟩ := List.mem_map.mp (hperm.mem_iff.mp ha)
      exact ensureTok_idem t₁
    show joinComma (sortStrs ((splitTerm (joinComma (sortStrs ((splitTerm x).map ensureTok)))).map ensureTok)) =
      joinComma (sortStrs ((splitTerm x).map ensureTok))
    rw [key1, key2, sortStrs_idem]
  · rcases H with hlen | h1
    · have hall : ∀ t ∈ (splitTerm x).map ensureTok, t = [] := by
        intro t ht
        by_contra hne
        exact hex ⟨t, ht, hne⟩
      have hcase : (splitTerm x).map ensureTok = [] ∨ (splitTerm x).map ensureTok = [[]] := by
        cases hM : (splitTerm x).map ensureTok with
        | nil => exact Or.inl rfl
        | cons t ts =>
          cases ts with
          | nil =>
            have := hall t (hM ▸ List.mem_cons_self t [])
            exact Or.inr (by rw [this])
          | cons u us =>
            rw [hM] at hlen
            simp at hlen
      rcases hcase with hM | hM
      · show joinComma (sortStrs ((splitTerm (joinComma (sortStrs ((splitTerm x).map ensureTok)))).map ensureTok)) =
          joinComma (sortStrs ((splitTerm x).map ensureTok))
        rw [hM]
        decide
      · show joinComma (sortStrs ((splitTerm (joinComma (sortStrs ((splitTerm x).map ensureTok)))).map ensureTok)) =
          joinComma (sortStrs ((splitTerm x).map ensureTok))
        rw [hM]
        decide
    · exact absurd h1 hex

/-! Facts about the `get_value` scan loop. -/

theorem build_compare_key_ne_none {attrs : List (Str × Str)} {g : List Str}
    (hg : g ≠ []) : ∃ k, build_compare_key attrs g true = some k := by
  rw [build_compare_key, if_neg hg]
  exact ⟨_, rfl⟩

theorem scanOverrides_nil {d : Document} {attrs : List (Str × Str)} {nm : Bool}
    {v : ParamValue} : scanOverrides d attrs nm v [] = some v := rfl

theorem scanOverrides_cons_none {d : Document} {attrs : List (Str × Str)} {nm : Bool}
    {v : ParamValue} {g : List Str} {gs : List (List Str)}
    (hk : build_compare_key attrs g true = none) :
    scanOverrides d attrs nm v (g :: gs) = none := by
  rw [scanOverrides, hk]

theorem scanOverrides_cons_nomatch {d : Document} {attrs : List (Str × Str)} {nm : Bool}
    {v : ParamValue} {g : List Str} {gs : List (List Str)} {key : Str}
    (hk : build_compare_key attrs g true = some key)
    (ho : ovGet d.overrides key = none) :
    scanOverrides d attrs nm v (g :: gs) = scanOverrides d attrs nm v gs := by
  have h1 : scanOverrides d attrs nm v (g :: gs) =
      match ovGet d.overrides key with
      | some m =>
        if nm then
          scanOverrides d attrs nm (if m.omitFlag then v else mergePatch v m.value) gs
        else some m.value
      | none => scanOverrides d attrs nm v gs := by
    rw [scanOverrides, hk]
  rw [h1, ho]

theorem scanOverrides_cons_match {d : Document} {attrs : List (Str × Str)} {nm : Bool}
    {v : ParamValue} {g : List Str} {gs : List (List Str)} {key : Str} {m : OverrideV2}
    (hk : build_compare_key attrs g true = some key)
    (ho : ovGet d.overrides key = some m) :
    scanOverrides d attrs nm v (g :: gs) =
      if nm then
        scanOverrides d attrs nm (if m.omitFlag then v else mergePatch v m.value) gs
      else some m.value := by
  have h1 : scanOverrides d attrs nm v (g :: gs) =
      match ovGet d.overrides key with
      | some m' =>
        if nm then
          scanOverrides d attrs nm (if m'.omitFlag then v else mergePatch v m'.value) gs
        else some m'.value
      | none => scanOverrides d attrs nm v gs := by
    rw [scanOverrides, hk]
  rw [h1, ho]

theorem firstMatchIn_nil {d : Document} {attrs : List (Str × Str)} :
    firstMatchIn d attrs [] = none := rfl

theorem firstMatchIn_cons_match {d : Document} {attrs : List (Str × Str)} {g : List Str}
    {gs : List (List Str)} {key : Str} {m : OverrideV2}
    (hk : build_compare_key attrs g true = some key)
    (ho : ovGet d.overrides key = some m) :
    firstMatchIn d attrs (g :: gs) = some m := by
  have h1 : firstMatchIn d attrs (g :: gs) =
      match ovGet d.overrides key with
      | some b => some b
      | none => firstMatchIn d attrs gs := by
    rw [firstMatchIn, hk]
    rfl
  rw [h1, ho]

theorem firstMatchIn_cons_nomatch {d : Document} {attrs : List (Str × Str)} {g : List Str}
    {gs : List (List Str)} {key : Str}
    (hk : build_compare_key attrs g true = some key)
    (ho : ovGet d.overrides key = none) :
    firstMatchIn d attrs (g :: gs) = firstMatchIn d attrs gs := by
  have h1 : firstMatchIn d attrs (g :: gs) =
      match ovGet d.overrides key with
      | some b => some b
      | none => firstMatchIn d attrs gs := by
    rw [firstMatchIn, hk]
    rfl
  rw [h1, ho]

theorem matchedIn_cons_match {d : Document} {attrs : List (Str × Str)} {g : List Str}
    {gs : List (List Str)} {key : Str} {m : OverrideV2}
    (hk : build_compare_key attrs g true = some key)
    (ho : ovGet d.overrides key = some m) :
    matchedIn d attrs (g :: gs) = m :: matchedIn d attrs gs := by
  have h1 : matchedIn d attrs (g :: gs) =
      match ovGet d.overrides key with
      | some b => b :: matchedIn d attrs gs
      | none => matchedIn d attrs gs := by
    rw [matchedIn, hk]
    rfl
  rw [h1, ho]

theorem matchedIn_cons_nomatch {d : Document} {attrs : List (Str × Str)} {g : List Str}
    {gs : List (List Str)} {key : Str}
    (hk : build_compare_key attrs g true = some key)
    (ho : ovGet d.overrides key = none) :
    matchedIn d attrs (g :: gs) = matchedIn d attrs gs := by
  have h1 : matchedIn d attrs (g :: gs) =
      match ovGet d.overrides key with
      | some b => b :: matchedIn d attrs gs
      | none => matchedIn d attrs gs := by
    rw [matchedIn, hk]
    rfl
  rw [h1, ho]

theorem scan_first_match {d : Document} {attrs : List (Str × Str)} :
    ∀ {gs : List (List Str)} {v : ParamValue} {e : OverrideV2},
      (∀ g ∈ gs, g ≠ []) → firstMatchIn d attrs gs = some e →
      scanOverrides d attrs false v gs = some e.value := by
  intro gs
  induction gs with
  | nil => intro v e _ hf; rw [firstMatchIn_nil] at hf; cases hf
  | cons g gs ih =>
    intro v e hne hf
    obtain ⟨key, hk⟩ := build_compare_key_ne_none (hne g (List.mem_cons_self g gs))
    cases ho : ovGet d.overrides key with
    | some m =>
      rw [firstMatchIn_cons_match hk ho] at hf
      rw [scanOverrides_cons_match hk ho, if_neg (by simp), Option.some_inj.mp hf]
    | none =>
      rw [firstMatchIn_cons_nomatch hk ho] at hf
      rw [scanOverrides_cons_nomatch hk ho]
      exact ih (fun g' hg' => hne g' (List.mem_cons_of_mem g hg')) hf

theorem scan_no_match {d : Document} {attrs : List (Str × Str)} {nm : Bool} :
    ∀ {gs : List (List Str)} {v : ParamValue},
      (∀ g ∈ gs, g ≠ []) → firstMatchIn d attrs gs = none →
      scanOverrides d attrs nm v gs = some v := by
  intro gs
  induction gs with
  | nil => intro v _ _; rfl
  | cons g gs ih =>
    intro v hne hf
    obtain ⟨key, hk⟩ := build_compare_key_ne_none (hne g (List.mem_cons_self g gs))
    cases ho : ovGet d.overrides key with
    | some m => rw [firstMatchIn_cons_match hk ho] at hf; cases hf
    | none =>
      rw [firstMatchIn_cons_nomatch hk ho] at hf
      rw [scanOverrides_cons_nomatch hk ho]
      exact ih (fun g' hg' => hne g' (List.mem_cons_of_mem g hg')) hf

theorem scan_merge_fold {d : Document} {attrs : List (Str × Str)} :
    ∀ {gs : List (List Str)} {v : ParamValue},
      (∀ g ∈ gs, g ≠ []) →
      scanOverrides d attrs true v gs =
        some ((matchedIn d attrs gs).foldl
          (fun acc e => if e.omitFlag then acc else mergePatch acc e.value) v) := by
  intro gs
  induction gs with
  | nil => intro v _; rfl
  | cons g gs ih =>
    intro v hne
    obtain ⟨key, hk⟩ := build_compare_key_ne_none (hne g (List.mem_cons_self g gs))
    have hrest : ∀ g' ∈ gs, g' ≠ [] := fun g' hg' => hne g' (List.mem_cons_of_mem g hg')
    cases ho : ovGet d.overrides key with
    | some m =>
      rw [scanOverrides_cons_match hk ho, if_pos rfl, matchedIn_cons_match hk ho,
        List.foldl_cons]
      exact ih hrest
    | none =>
      rw [scanOverrides_cons_nomatch hk ho, matchedIn_cons_nomatch hk ho]
      exact ih hrest

theorem scan_total {d : Document} {attrs : List (Str × Str)} {nm : Bool} :
    ∀ {gs : List (List Str)} {v : ParamValue},
      (∀ g ∈ gs, g ≠ []) → (scanOverrides d attrs nm v gs).isSome = true := by
  intro gs
  induction gs with
  | nil => intro v _; rfl
  | cons g gs ih =>
    intro v hne
    obtain ⟨key, hk⟩ := build_compare_key_ne_none (hne g (List.mem_cons_self g gs))
    have hrest : ∀ g' ∈ gs, g' ≠ [] := fun g' hg' => hne g' (List.mem_cons_of_mem g hg')
    cases ho : ovGet d.overrides key with
    | some m =>
      rw [scanOverrides_cons_match hk ho]
      cases nm with
      | true => rw [if_pos rfl]; exact ih hrest
      | false => rfl
    | none =>
      rw [scanOverrides_cons_nomatch hk ho]
      exact ih hrest

/-! Facts about the load pipeline. -/

theorem colPush_total (m : List (Str × List Document)) (d : Document) :
    ((colPush m d).map (fun kv => kv.2.length)).sum =
      (m.map (fun kv => kv.2.length)).sum + 1 := by
  induction m with
  | nil => rfl
  | cons kv rest ih =>
    rw [colPush]
    by_cases h : kv.1 = d.collection
    · rw [if_pos h]
      simp [List.length_append]
      omega
    · rw [if_neg h]
      simp only [List.map_cons, List.sum_cons, ih]
      omega

theorem goodCount_cons (e : FileEntry) (es : List FileEntry) :
    goodCount (e :: es) =
      (if isDefFileName e.fname && e.parsed.toBool then 1 else 0) + goodCount es := by
  rw [goodCount, goodCount, List.filter_cons]
  by_cases h : (isDefFileName e.fname && e.parsed.toBool) = true
  · rw [if_pos h, if_pos h, List.length_cons]
    omega
  · rw [if_neg h, if_neg h]
    omega

theorem loadWalk_cons_ok {fn : Str} {doc : Document} {es : List FileEntry} {b : Bool}
    {acc : Collection} {t : Nat} :
    loadWalk (⟨fn, Except.ok doc⟩ :: es) b acc t =
      if isDefFileName fn then loadWalk es b ⟨colPush acc.documents doc⟩ (t + 1)
      else loadWalk es b acc t := by
  rw [loadWalk]

theorem loadWalk_cons_err {fn : Str} {err : DocumentError} {es : List FileEntry} {b : Bool}
    {acc : Collection} {t : Nat} :
    loadWalk (⟨fn, Except.error err⟩ :: es) b acc t =
      if isDefFileName fn then
        (if b then loadWalk es b acc t
         else Except.error (CollectionError.documentError err))
      else loadWalk es b acc t := by
  rw [loadWalk]

theorem loadWalk_ok_total :
    ∀ {es : List FileEntry} {b : Bool} {acc : Collection} {t : Nat} {c : Collection}
      {tot : Nat}, loadWalk es b acc t = Except.ok (c, tot) →
      totalDocuments c + t = totalDocuments acc + tot := by
  intro es
  induction es with
  | nil =>
    intro b acc t c tot h
    rw [loadWalk] at h
    simp only [Except.ok.injEq, Prod.mk.injEq] at h
    rw [← h.1, ← h.2]
  | cons e es ih =>
    intro b acc t c tot h
    obtain ⟨fn, pr⟩ := e
    cases pr with
    | ok doc =>
      rw [loadWalk_cons_ok] at h
      by_cases hq : isDefFileName fn = true
      · rw [if_pos hq] at h
        have := ih h
        rw [totalDocuments, totalDocuments] at *
        simp only [colPush_total] at this
        omega
      · rw [if_neg hq] at h
        exact ih h
    | error err =>
      rw [loadWalk_cons_err] at h
      by_cases hq : isDefFileName fn = true
      · rw [if_pos hq] at h
        cases b with
        | true =>
          rw [if_pos rfl] at h
          exact ih h
        | false => simp at h
      · rw [if_neg hq] at h
        exact ih h

theorem loadWalk_true_ok :
    ∀ (es : List FileEntry) (acc : Collection) (t : Nat),
      ∃ c, loadWalk es true acc t = Except.ok (c, t + goodCount es) := by
  intro es
  induction es with
  | nil =>
    intro acc t
    exact ⟨acc, rfl⟩
  | cons e es ih =>
    intro acc t
    obtain ⟨fn, pr⟩ := e
    cases pr with
    | ok doc =>
      rw [loadWalk_cons_ok]
      by_cases hq : isDefFileName fn = true
      · rw [if_pos hq]
        obtain ⟨c, hc⟩ := ih ⟨colPush acc.documents doc⟩ (t + 1)
        refine ⟨c, ?_⟩
        rw [hc, goodCount_cons]
        rw [show (isDefFileName fn &&
          Except.toBool (Except.ok doc : Except DocumentError Document)) = true from by
            rw [hq]; rfl]
        rw [if_pos rfl, Nat.add_assoc]
      · rw [if_neg hq]
        obtain ⟨c, hc⟩ := ih acc t
        refine ⟨c, ?_⟩
        rw [hc, goodCount_cons]
        rw [show (isDefFileName fn &&
          Except.toBool (Except.ok doc : Except DocumentError Document)) = false from by
            cases hb : isDefFileName fn with
            | true => exact absurd hb hq
            | false => rfl]
        rw [if_neg (by simp), Nat.zero_add]
    | error err =>
      rw [loadWalk_cons_err]
      obtain ⟨c, hc⟩ := ih acc t
      refine ⟨c, ?_⟩
      have hval : goodCount (⟨fn, Except.error err⟩ :: es) = goodCount es := by
        rw [goodCount_cons]
        rw [show (isDefFileName fn &&
          Except.toBool (Except.error err : Except DocumentError Document)) = false from by
            simp [Except.toBool]]
        rw [if_neg (by simp), Nat.zero_add]
      rw [hval]
      by_cases hq : isDefFileName fn = true
      · rw [if_pos hq, if_pos rfl]
        exact hc
      · rw [if_neg hq]
        exact hc

theorem loadWalk_all_good_ok :
    ∀ {es : List FileEntry} (acc : Collection) (t : Nat),
      (∀ e ∈ es, isDefFileName e.fname = true → e.parsed.toBool = true) →
      ∃ c, loadWalk es false acc t = Except.ok (c, t + goodCount es) := by
  intro es
  induction es with
  | nil =>
    intro acc t _
    exact ⟨acc, rfl⟩
  | cons e es ih =>
    intro acc t hgood
    have hrest : ∀ e' ∈ es, isDefFileName e'.fname = true → e'.parsed.toBool = true :=
      fun e' he' => hgood e' (List.mem_cons_of_mem e he')
    obtain ⟨fn, pr⟩ := e
    cases pr with
    | ok doc =>
      rw [loadWalk_cons_ok]
      by_cases hq : isDefFileName fn = true
      · rw [if_pos hq]
        obtain ⟨c, hc⟩ := ih ⟨colPush acc.documents doc⟩ (t + 1) hrest
        refine ⟨c, ?_⟩
        rw [hc, goodCount_cons]
        rw [show (isDefFileName fn &&
          Except.toBool (Except.ok doc : Except DocumentError Document)) = true from by
            rw [hq]; rfl]
        rw [if_pos rfl, Nat.add_assoc]
      · rw [if_neg hq]
        obtain ⟨c, hc⟩ := ih acc t hrest
        refine ⟨c, ?_⟩
        rw [hc, goodCount_cons]
        rw [show (isDefFileName fn &&
          Except.toBool (Except.ok doc : Except DocumentError Document)) = false from by
            cases hb : isDefFileName fn with
            | true => exact absurd hb hq
            | false => rfl]
        rw [if_neg (by simp), Nat.zero_add]
    | error err =>
      have hne : isDefFileName fn ≠ true := by
        intro hq
        have := hgood ⟨fn, Except.error err⟩ (List.mem_cons_self _ es) hq
        simp [Except.toBool] at this
      rw [loadWalk_cons_err, if_neg hne]
      obtain ⟨c, hc⟩ := ih acc t hrest
      refine ⟨c, ?_⟩
      rw [hc, goodCount_cons]
      rw [show (isDefFileName fn &&
        Except.toBool (Except.error err : Except DocumentError Document)) = false from by
          simp [Except.toBool]]
      rw [if_neg (by simp), Nat.zero_add]

theorem loadWalk_first_bad :
    ∀ {pre : List FileEntry} {e : FileEntry} {post : List FileEntry} {acc : Collection}
      {t : Nat} {err : DocumentError},
      (∀ x ∈ pre, isDefFileName x.fname = true → x.parsed.toBool = true) →
      isDefFileName e.fname = true → e.parsed = Except.error err →
      loadWalk (pre ++ e :: post) false acc t =
        Except.error (CollectionError.documentError err) := by
  intro pre
  induction pre with
  | nil =>
    intro e post acc t err _ hq herr
    obtain ⟨fn, pr⟩ := e
    simp only at hq herr
    subst herr
    rw [List.nil_append, loadWalk_cons_err, if_pos hq]
    rfl
  | cons x pre ih =>
    intro e post acc t err hgood hq herr
    have hrest : ∀ x' ∈ pre, isDefFileName x'.fname = true → x'.parsed.toBool = true :=
      fun x' hx' => hgood x' (List.mem_cons_of_mem x hx')
    obtain ⟨fn, pr⟩ := x
    cases pr with
    | ok doc =>
      rw [List.cons_append, loadWalk_cons_ok]
      by_cases hqx : isDefFileName fn = true
      · rw [if_pos hqx]
        exact ih hrest hq herr
      · rw [if_neg hqx]
        exact ih hrest hq herr
    | error errx =>
      have hne : isDefFileName fn ≠ true := by
        intro hqx
        have := hgood ⟨fn, Except.error errx⟩ (List.mem_cons_self _ pre) hqx
        simp [Except.toBool] at this
      rw [List.cons_append, loadWalk_cons_err, if_neg hne]
      exact ih hrest hq herr

/-! Facts about `mergePatch`. -/

theorem objGet_objRemove : ∀ (bf : PVFields) (k : Str), objGet (objRemove bf k) k = none
  | PVFields.nil, _ => rfl
  | PVFields.cons k' v rest, k => by
    rw [objRemove]
    by_cases h : k' = k
    · rw [if_pos h]
      exact objGet_objRemove rest k
    · rw [if_neg h, objGet, if_neg h]
      exact objGet_objRemove rest k

theorem mergePatch_single_null (bf : PVFields) (k : Str) :
    mergePatch (ParamValue.obj bf) (ParamValue.obj (PVFields.cons k ParamValue.null PVFields.nil)) =
      ParamValue.obj (objRemove bf k) := by
  rw [mergePatch, mergeFields, if_pos rfl]
  rfl

theorem mergePatch_not_obj (v p : ParamValue) (h : ∀ pf, p ≠ ParamValue.obj pf) :
    mergePatch v p = p := by
  cases p with
  | null => rfl
  | bool b => rfl
  | num n => rfl
  | str s => rfl
  | arr items => rfl
  | obj pf => exact absurd rfl (h pf)

/-! Characterizations of `get_value` in terms of the matched entries. -/

theorem get_value_of_scan {d : Document} {attrs : List (Str × Str)} {r : ParamValue}
    (h : scanOverrides d attrs (d.merge_overrides && isHashType d.value_type)
      (seedValue d) d.order_list = some r) :
    get_value d attrs = some (if r = emptyObj then d.default_value else r) := by
  rw [get_value, h]
  rfl

theorem get_value_default_of_no_match {d : Document} {attrs : List (Str × Str)}
    (hne : ∀ g ∈ d.order_list, g ≠ [])
    (hnm : firstMatchIn d attrs d.order_list = none) :
    get_value d attrs = some d.default_value := by
  rw [get_value_of_scan (scan_no_match hne hnm), seedValue]
  by_cases hm : (d.merge_default && isHashType d.value_type) = true
  · rw [if_pos hm, ite_self]
  · rw [if_neg hm, if_pos rfl]

theorem get_value_first_match {d : Document} {attrs : List (Str × Str)} {e : OverrideV2}
    (hmode : (d.merge_overrides && isHashType d.value_type) = false)
    (hne : ∀ g ∈ d.order_list, g ≠ [])
    (hf : firstMatchIn d attrs d.order_list = some e) :
    get_value d attrs = some (if e.value = emptyObj then d.default_value else e.value) := by
  rw [get_value, hmode, scan_first_match hne hf]
  rfl

theorem get_value_merge_fold {d : Document} {attrs : List (Str × Str)}
    (hmode : (d.merge_overrides && isHashType d.value_type) = true)
    (hne : ∀ g ∈ d.order_list, g ≠ []) :
    get_value d attrs =
      some (if (matchedIn d attrs d.order_list).foldl
          (fun acc e => if e.omitFlag then acc else mergePatch acc e.value) (seedValue d) =
          emptyObj
        then d.default_value
        else (matchedIn d attrs d.order_list).foldl
          (fun acc e => if e.omitFlag then acc else mergePatch acc e.value) (seedValue d)) := by
  rw [get_value, hmode, scan_merge_fold hne]
  rfl

theorem get_value_total {d : Document} {attrs : List (Str × Str)}
    (hne : ∀ g ∈ d.order_list, g ≠ []) : (get_value d attrs).isSome = true := by
  rw [get_value]
  cases hs : scanOverrides d attrs (d.merge_overrides && isHashType d.value_type)
      (seedValue d) d.order_list with
  | some r => rfl
  | none =>
    have := @scan_total d attrs (d.merge_overrides && isHashType d.value_type)
      d.order_list (seedValue d) hne
    rw [hs] at this
    cases this

theorem build_compare_key_congr {a₁ a₂ : List (Str × Str)} :
    ∀ {names : List Str} {b : Bool},
      (∀ n ∈ names, hmGet a₁ n = hmGet a₂ n) →
      build_compare_key a₁ names b = build_compare_key a₂ names b := by
  have hfold : ∀ (names : List Str) (m : List (Str × Str)),
      (∀ n ∈ names, hmGet a₁ n = hmGet a₂ n) →
      names.foldl (fun m' it => hmInsert m' (toLowerStr it) ((hmGet a₁ it).getD [])) m =
        names.foldl (fun m' it => hmInsert m' (toLowerStr it) ((hmGet a₂ it).getD [])) m := by
    intro names
    induction names with
    | nil => intro m _; rfl
    | cons n ns ih =>
      intro m h
      rw [List.foldl_cons, List.foldl_cons, h n (List.mem_cons_self n ns)]
      exact ih _ (fun n' hn' => h n' (List.mem_cons_of_mem n hn'))
  intro names b h
  rw [build_compare_key, build_compare_key]
  by_cases hn : names = []
  · rw [if_pos hn, if_pos hn]
  · rw [if_neg hn, if_neg hn, hfold names [] h]

/-! Concrete documents and attribute maps used to settle the claims on
explicit inputs. -/

/-- Builds a `PVFields` literal from a list of pairs. -/
def fieldsOf : List (Str × ParamValue) → PVFields
  | [] => PVFields.nil
  | (k, v) :: rest => PVFields.cons k v (fieldsOf rest)

/-- The document of spec §8: two tiers `[[k1,k2],[k2,k3]]`, two string
overrides, non-merge mode. -/
def docSpec1 : Document :=
  { description := lit "spec section 8 example", default_value := ParamValue.str (lit "dflt"),
    enabled := true, value_type := DocumentValueType.string,
    name := lit "p", collection := lit "c", omitFlag := false,
    merge_default := false, merge_overrides := false,
    overrides := [(lit "k1=v1,k2=v2", ⟨false, ParamValue.str (lit "A")⟩),
                  (lit "k2=v2,k3=v3", ⟨false, ParamValue.str (lit "B")⟩)],
    order_list := str2list_of_attrs [lit "k1,k2", lit "k2,k3"],
    hidden_value := none, validator_rule := none, validator_type := none }

/-- Non-merge document whose single override carries the empty-object
value `{}` while the default differs. -/
def docC1empty : Document :=
  { description := lit "", default_value := ParamValue.str (lit "d"),
    enabled := true, value_type := DocumentValueType.string,
    name := lit "p", collection := lit "c", omitFlag := false,
    merge_default := false, merge_overrides := false,
    overrides := [(lit "k1=v1", ⟨false, emptyObj⟩)],
    order_list := [[lit "k1"]],
    hidden_value := none, validator_rule := none, validator_type := none }

/-- Merge-mode document whose tier-1 override has a null-valued field and
whose tier-2 override has an ordinary field. -/
def docC2null : Document :=
  { description := lit "", default_value := emptyObj,
    enabled := true, value_type := DocumentValueType.hash,
    name := lit "p", collection := lit "c", omitFlag := false,
    merge_default := false, merge_overrides := true,
    overrides := [(lit "k1=v1", ⟨false, ParamValue.obj (fieldsOf [(lit "x", ParamValue.null)])⟩),
                  (lit "k2=v2", ⟨false, ParamValue.obj (fieldsOf [(lit "y", ParamValue.num 1)])⟩)],
    order_list := [[lit "k1"], [lit "k2"]],
    hidden_value := none, validator_rule := none, validator_type := none }

/-- Merge-mode document with two overlapping composite overrides (field
`c` is authored in both tiers). -/
def docC2union : Document :=
  { description := lit "", default_value := emptyObj,
    enabled := true, value_type := DocumentValueType.hash,
    name := lit "p", collection := lit "c", omitFlag := false,
    merge_default := false, merge_overrides := true,
    overrides := [(lit "k1=v1", ⟨false,
                    ParamValue.obj (fieldsOf [(lit "x", ParamValue.num 1), (lit "c", ParamValue.num 1)])⟩),
                  (lit "k2=v2", ⟨false,
                    ParamValue.obj (fieldsOf [(lit "y", ParamValue.num 2), (lit "c", ParamValue.num 2)])⟩)],
    order_list := [[lit "k1"], [lit "k2"]],
    hidden_value := none, validator_rule := none, validator_type := none }

/-- Like `docC2union` but the tier-2 override is marked `omit`. -/
def docC2omit : Document :=
  { description := lit "", default_value := emptyObj,
    enabled := true, value_type := DocumentValueType.hash,
    name := lit "p", collection := lit "c", omitFlag := false,
    merge_default := false, merge_overrides := true,
    overrides := [(lit "k1=v1", ⟨false,
                    ParamValue.obj (fieldsOf [(lit "x", ParamValue.num 1), (lit "c", ParamValue.num 1)])⟩),
                  (lit "k2=v2", ⟨true,
                    ParamValue.obj (fieldsOf [(lit "y", ParamValue.num 2), (lit "c", ParamValue.num 2)])⟩)],
    order_list := [[lit "k1"], [lit "k2"]],
    hidden_value := none, validator_rule := none, validator_type := none }

/-- A document whose order list was parsed from an empty authored order
string, producing an empty match group. -/
def docC4bad : Document :=
  { description := lit "", default_value := ParamValue.str (lit "d"),
    enabled := true, value_type := DocumentValueType.string,
    name := lit "p", collection := lit "c", omitFlag := false,
    merge_default := false, merge_overrides := false,
    overrides := [],
    order_list := str2list_of_attrs [lit ""],
    hidden_value := none, validator_rule := none, validator_type := none }

/-- Merge-mode document seeding from a composite default whose override
removes field `b` via a null field. -/
def docC9null : Document :=
  { description := lit "", default_value :=
      ParamValue.obj (fieldsOf [(lit "a", ParamValue.num 1), (lit "b", ParamValue.num 2)]),
    enabled := true, value_type := DocumentValueType.hash,
    name := lit "p", collection := lit "c", omitFlag := false,
    merge_default := true, merge_overrides := true,
    overrides := [(lit "k1=v1", ⟨false, ParamValue.obj (fieldsOf [(lit "b", ParamValue.null)])⟩)],
    order_list := [[lit "k1"]],
    hidden_value := none, validator_rule := none, validator_type := none }

/-- Merge-mode document whose override value is not an object, so the
merge replaces the accumulated composite default wholesale. -/
def docC9rep : Document :=
  { description := lit "", default_value :=
      ParamValue.obj (fieldsOf [(lit "a", ParamValue.num 1)]),
    enabled := true, value_type := DocumentValueType.hash,
    name := lit "p", collection := lit "c", omitFlag := false,
    merge_default := true, merge_overrides := true,
    overrides := [(lit "k1=v1", ⟨false, ParamValue.str (lit "s")⟩)],
    order_list := [[lit "k1"]],
    hidden_value := none, validator_rule := none, validator_type := none }

/-- Attribute map matching only the second tier of `docSpec1`. -/
def attrsB : List (Str × Str) := [(lit "k2", lit "v2"), (lit "k3", lit "v3")]

/-- Attribute map matching the first tier of `docSpec1`. -/
def attrsA : List (Str × Str) := [(lit "k1", lit "v1"), (lit "k2", lit "v2")]

/-- Attribute map matching both tiers of `docSpec1`. -/
def attrsAB : List (Str × Str) :=
  [(lit "k1", lit "v1"), (lit "k2", lit "v2"), (lit "k3", lit "v3")]

/-- Attribute map matching both single-attribute tiers `k1`, `k2`. -/
def attrsK12 : List (Str × Str) := [(lit "k1", lit "v1"), (lit "k2", lit "v2")]

/-- Attribute map matching the single tier `k1`. -/
def attrsK1 : List (Str × Str) := [(lit "k1", lit "v1")]

/-- A qualifying well-formed definition file entry (parses to `docSpec1`). -/
def feGood : FileEntry := ⟨lit "a.yml", Except.ok docSpec1⟩

/-- A qualifying definition file whose parse fails. -/
def feBad : FileEntry := ⟨lit "b.yaml", Except.error (DocumentError.parseError (lit "bad"))⟩

/-- A non-qualifying file (wrong suffix) that would parse. -/
def feTxt : FileEntry := ⟨lit "c.txt", Except.ok docSpec1⟩

/-- A hidden file (leading dot) that is never visited. -/
def feHidden : FileEntry := ⟨lit ".h.yml", Except.error (DocumentError.parseError (lit "x"))⟩

/-! Model validation: the unit tests shipped in `document.rs`, replayed
against the embedding. -/

/-- The seven `test_normalize_override_key` cases of `document.rs`. -/
theorem model_test_normalize_override_key :
    normalize_override_key (lit "is_virtual=TruE,HostGroup=Dev") =
      lit "hostgroup=dev,is_virtual=true" ∧
    normalize_override_key (lit "domain=example.com ,  HostGroup=pRODd") =
      lit "domain=example.com,hostgroup=prodd" ∧
    normalize_override_key (lit "ad-group=true,domain=example.com , HostGroup=pRODd") =
      lit "ad-group=true,domain=example.com,hostgroup=prodd" ∧
    normalize_override_key (lit " HostGroup=pRODd,any=") = lit "any=,hostgroup=prodd" ∧
    normalize_override_key (lit " all,HostGroup=pRODd,any=") =
      lit "all,any=,hostgroup=prodd" ∧
    normalize_override_key (lit " all=NO,HostGroup=pRODd, any= ,ZED=always ") =
      lit "all=no,any=,hostgroup=prodd,zed=always" ∧
    normalize_override_key (lit " HostGroup=pRO d, any  =  AAA BBB ") =
      lit "any=aaa bbb,hostgroup=pro d" := by
  decide

/-- The `test_normalize_attrs` cases of `document.rs`, modulo the map's
iteration order. -/
theorem model_test_normalize_attrs :
    normalize_attrs [(lit "KEY_a ", lit "value_1  "), (lit "kEY_z", lit "   VALUE_2"),
      (lit "  key_D", lit "valUE_3  ")] false = lit "key_a=value_1,key_d=valUE_3,key_z=VALUE_2" ∧
    normalize_attrs [(lit "KEY_a ", lit "value_1  "), (lit "kEY_z", lit "   VALUE_2"),
      (lit "  key_D", lit "valUE_3  ")] true = lit "key_a=value_1,key_d=value_3,key_z=value_2" ∧
    build_compare_key [(lit "key_a", lit "value_1  "), (lit "key_z", lit "   VALUE_2"),
      (lit "key_d", lit "valUE_3  ")] [lit "key_a", lit "key_z", lit "a_key"] true =
      some (lit "a_key=,key_a=value_1,key_z=value_2") := by
  decide

/-- The `test_doc_v2` resolution case of `document.rs`. -/
theorem model_test_doc_v2 :
    str2list_of_attrs [lit "key1,key2", lit "key2,key3"] =
      [[lit "key1", lit "key2"], [lit "key2", lit "key3"]] ∧
    get_value docSpec1 attrsB = some (ParamValue.str (lit "B")) := by
  decide

/-! Claim theorems. -/

/-- C1 (counterexample): in non-merge mode the scan does stop at the first
matching tier, but the matched entry's value is not always what resolve
returns: when that value is the empty object `{}`, the final sentinel
check returns `defaultValue` instead, so "the earliest matching tier's
value is returned" fails on `docC1empty`. -/
theorem C1_counterexample :
    firstMatchIn docC1empty attrsK1 docC1empty.order_list = some ⟨false, emptyObj⟩ ∧
    get_value docC1empty attrsK1 = some (ParamValue.str (lit "d")) ∧
    ParamValue.str (lit "d") ≠ emptyObj := by
  decide

/-- C1 (amended): in non-merge mode (`mergeOverrides && isComposite`
false), resolve scans the order list in authored order and, at the first
group whose compare key is in the override table, stops immediately with
that entry's value regardless of its omit flag; the returned value is that
entry's value unless it equals the empty-object sentinel, in which case
`defaultValue` is returned. The spec §8 examples hold as stated. -/
theorem C1_amended :
    (∀ (d : Document) (attrs : List (Str × Str)) (e : OverrideV2),
      (d.merge_overrides && isHashType d.value_type) = false →
      (∀ g ∈ d.order_list, g ≠ []) →
      firstMatchIn d attrs d.order_list = some e →
      get_value d attrs = some (if e.value = emptyObj then d.default_value else e.value)) ∧
    get_value docSpec1 attrsB = some (ParamValue.str (lit "B")) ∧
    get_value docSpec1 attrsA = some (ParamValue.str (lit "A")) ∧
    get_value docSpec1 attrsAB = some (ParamValue.str (lit "A")) := by
  refine ⟨fun d attrs e hm hne hf => get_value_first_match hm hne hf, ?_, ?_, ?_⟩ <;> decide

/-- C1 (witness): the amended first-match characterization applied to the
spec §8 document at a concrete request matching the first tier. -/
theorem C1_amended_witness :
    get_value docSpec1 attrsA =
      some (if (ParamValue.str (lit "A")) = emptyObj then docSpec1.default_value
        else ParamValue.str (lit "A")) :=
  C1_amended.1 docSpec1 attrsA ⟨false, ParamValue.str (lit "A")⟩ (by decide) (by decide)
    (by decide)

/-- C2 (counterexample): two non-conflicting composite overrides match at
different tiers of `docC2null`, yet the result does not contain the union
of both tiers' keys: the tier-1 field `x` is null-valued, and the
merge-patch semantics removes that key instead of contributing it. -/
theorem C2_counterexample :
    ovGet docC2null.overrides (lit "k1=v1") =
      some ⟨false, ParamValue.obj (fieldsOf [(lit "x", ParamValue.null)])⟩ ∧
    ovGet docC2null.overrides (lit "k2=v2") =
      some ⟨false, ParamValue.obj (fieldsOf [(lit "y", ParamValue.num 1)])⟩ ∧
    build_compare_key attrsK12 [lit "k1"] true = some (lit "k1=v1") ∧
    build_compare_key attrsK12 [lit "k2"] true = some (lit "k2=v2") ∧
    get_value docC2null attrsK12 =
      some (ParamValue.obj (fieldsOf [(lit "y", ParamValue.num 1)])) ∧
    objGet (fieldsOf [(lit "y", ParamValue.num 1)]) (lit "x") = none := by
  decide

/-- C2 (amended): in merge mode resolve continues scanning all match
groups, and the result is the JSON-merge-patch fold of every matching
non-omit entry over the seed, in tier order; an omit entry contributes
nothing. For two non-conflicting composite overrides with no null-valued
fields the result is the union of both tiers' keys with the later tier
winning on conflict; a null-valued field instead removes its key. -/
theorem C2_amended :
    (∀ (d : Document) (attrs : List (Str × Str)),
      (d.merge_overrides && isHashType d.value_type) = true →
      (∀ g ∈ d.order_list, g ≠ []) →
      get_value d attrs =
        some (if (matchedIn d attrs d.order_list).foldl
            (fun acc e => if e.omitFlag then acc else mergePatch acc e.value) (seedValue d) =
            emptyObj
          then d.default_value
          else (matchedIn d attrs d.order_list).foldl
            (fun acc e => if e.omitFlag then acc else mergePatch acc e.value) (seedValue d))) ∧
    get_value docC2union attrsK12 =
      some (ParamValue.obj (fieldsOf [(lit "x", ParamValue.num 1), (lit "c", ParamValue.num 2),
        (lit "y", ParamValue.num 2)])) ∧
    get_value docC2omit attrsK12 =
      some (ParamValue.obj (fieldsOf [(lit "x", ParamValue.num 1),
        (lit "c", ParamValue.num 1)])) := by
  refine ⟨fun d attrs hm hne => get_value_merge_fold hm hne, ?_, ?_⟩ <;> decide

/-- C2 (witness): the merge-fold characterization applied to the
two-tier union document at a request matching both tiers. -/
theorem C2_amended_witness :
    get_value docC2union attrsK12 =
      some (if (matchedIn docC2union attrsK12 docC2union.order_list).foldl
          (fun acc e => if e.omitFlag then acc else mergePatch acc e.value)
          (seedValue docC2union) = emptyObj
        then docC2union.default_value
        else (matchedIn docC2union attrsK12 docC2union.order_list).foldl
          (fun acc e => if e.omitFlag then acc else mergePatch acc e.value)
          (seedValue docC2union)) :=
  C2_amended.1 docC2union attrsK12 (by decide) (by decide)

/-- C3: after the scan, resolve returns `defaultValue` when the
accumulated result is still the empty-object sentinel and the accumulated
result otherwise; in particular a document none of whose match groups'
compare keys are in the override table resolves to exactly
`defaultValue`. -/
theorem C3_default_fallback :
    (∀ (d : Document) (attrs : List (Str × Str)),
      (∀ g ∈ d.order_list, g ≠ []) →
      firstMatchIn d attrs d.order_list = none →
      get_value d attrs = some d.default_value) ∧
    (∀ (d : Document) (attrs : List (Str × Str)) (r : ParamValue),
      scanOverrides d attrs (d.merge_overrides && isHashType d.value_type)
        (seedValue d) d.order_list = some r →
      get_value d attrs = some (if r = emptyObj then d.default_value else r)) :=
  ⟨fun _ _ hne hnm => get_value_default_of_no_match hne hnm,
   fun _ _ _ hs => get_value_of_scan hs⟩

/-- C3 (witness): the no-match branch applied to the spec §8 document with
an empty request, which matches no tier, resolving to the default. -/
theorem C3_default_fallback_witness :
    get_value docSpec1 [] = some docSpec1.default_value :=
  C3_default_fallback.1 docSpec1 [] (by decide) (by decide)

/-- C4 (counterexample): resolve is not total on every document the load
pipeline can produce: an empty authored order string parses to an empty
match group (`str2list_of_attrs [""] = [[]]`), and on such a document
`build_compare_key`'s assertion fires — modelled as `get_value` returning
`none` — for any request, contradicting "never fails". -/
theorem C4_counterexample :
    str2list_of_attrs [lit ""] = [[]] ∧
    docC4bad.order_list = [[]] ∧
    get_value docC4bad [] = none := by
  decide

/-- C4 (amended): resolve is total for every document all of whose match
groups are nonempty — a missing requested attribute degrades to an
empty-string comparison and a missing override falls through to the
default value — but a document whose order list contains a match group
parsed from an empty authored order string reaches the failing assertion
in `build_compare_key`. -/
theorem C4_amended :
    (∀ (d : Document) (attrs : List (Str × Str)),
      (∀ g ∈ d.order_list, g ≠ []) → (get_value d attrs).isSome = true) ∧
    build_compare_key [] [lit "k"] true = some (lit "k=") ∧
    build_compare_key [(lit "other", lit "x")] [lit "k"] true = some (lit "k=") ∧
    get_value docSpec1 [(lit "zzz", lit "q")] = some docSpec1.default_value := by
  refine ⟨fun d attrs hne => get_value_total hne, ?_, ?_, ?_⟩ <;> decide

/-- C4 (witness): totality applied to the spec §8 document at an empty
request. -/
theorem C4_amended_witness : (get_value docSpec1 []).isSome = true :=
  C4_amended.1 docSpec1 [] (by decide)

/-- C5: the key normalizer trims names and values, lowercases names always
and values under value-folding, renders pairs as `name=value` (a bare
token is kept as-is, trimmed and lowercased), preserves empty values as
`name=`, sorts the rendered tokens lexicographically by full text, joins
with commas, and yields the same output for every iteration order of the
input container. -/
theorem C5_normalizer_contract :
    (∀ (l₁ l₂ : List (Str × Str)) (b : Bool), l₁.Perm l₂ →
      normalize_attrs l₁ b = normalize_attrs l₂ b) ∧
    normalize_attrs [(lit " HostGroup ", lit " Dev ")] true = lit "hostgroup=dev" ∧
    normalize_attrs [(lit "name", lit "")] true = lit "name=" ∧
    normalize_override_key (lit " all,HostGroup=pRODd,any=") =
      lit "all,any=,hostgroup=prodd" ∧
    normalize_override_key (lit "a=z,a=b") = lit "a=b,a=z" ∧
    normalize_override_key (lit "b=1,a=2") = lit "a=2,b=1" := by
  refine ⟨fun l₁ l₂ b h => congrArg joinComma (sortStrs_congr_perm (List.Perm.map _ h)),
    ?_, ?_, ?_, ?_, ?_⟩ <;> decide

/-- C5 (witness): iteration-order independence applied to one concrete
two-pair map presented in both orders. -/
theorem C5_normalizer_contract_witness :
    normalize_attrs [(lit "b", lit "2"), (lit "a", lit "1")] true =
      normalize_attrs [(lit "a", lit "1"), (lit "b", lit "2")] true :=
  C5_normalizer_contract.1 _ _ true (List.Perm.swap (lit "a", lit "1") (lit "b", lit "2") [])

/-- C6 (counterexample): normalization is not idempotent on every input:
for `x = ",,"` the first pass yields `","` (two empty tokens joined) and
the second pass yields `""`, so `normalize (normalize x) ≠ normalize x`. -/
theorem C6_counterexample :
    normalize_override_key (lit ",,") = lit "," ∧
    normalize_override_key (normalize_override_key (lit ",,")) = lit "" ∧
    normalize_override_key (normalize_override_key (lit ",,")) ≠
      normalize_override_key (lit ",,") := by
  decide

/-- C6 (amended): normalization is idempotent on every input except those
whose tokens all normalize to the empty token with at least two tokens
present (such as `",,"`): whenever at most one token results or some token
normalizes nonempty, `normalize (normalize x) = normalize x`; and inputs
differing only in case and surrounding whitespace of names and values
normalize to the same canonical key. -/
theorem C6_amended :
    (∀ x : Str,
      (((splitTerm x).map ensureTok).length ≤ 1 ∨
        ∃ t ∈ (splitTerm x).map ensureTok, t ≠ []) →
      normalize_override_key (normalize_override_key x) = normalize_override_key x) ∧
    normalize_attrs [(lit "HostGroup", lit " Dev ")] true =
      normalize_attrs [(lit "hostgroup", lit "dev")] true ∧
    normalize_override_key (lit "is_virtual=TruE,HostGroup=Dev") =
      normalize_override_key (lit "  is_virtual = true ,HOSTGROUP=dev") := by
  refine ⟨normalize_override_key_idem_of, ?_, ?_⟩ <;> decide

/-- C6 (witness): idempotence applied to a concrete two-token key. -/
theorem C6_amended_witness :
    normalize_override_key (normalize_override_key (lit "B=2, a = 1 ")) =
      normalize_override_key (lit "B=2, a = 1 ") :=
  C6_amended.1 (lit "B=2, a = 1 ") (by decide)

/-- C7: the load never returns an empty store — a successful load holds at
least one document — and whenever the completed walk loaded zero documents
the load fails with the distinct `DocumentsNotFound` error, both with
`ignoreBad` set (bad files skipped) and without it (when no qualifying
file fails). -/
theorem C7_no_documents_error :
    (∀ (entries : List FileEntry) (b : Bool) (c : Collection),
      collectionTryFrom entries b = Except.ok c → 1 ≤ totalDocuments c) ∧
    (∀ entries : List FileEntry, goodCount entries = 0 →
      collectionTryFrom entries true = Except.error CollectionError.documentsNotFound) ∧
    (∀ entries : List FileEntry, goodCount entries = 0 →
      (∀ e ∈ entries, isDefFileName e.fname = true → e.parsed.toBool = true) →
      collectionTryFrom entries false = Except.error CollectionError.documentsNotFound) := by
  refine ⟨?_, ?_, ?_⟩
  · intro entries b c h
    cases hw : loadWalk entries b ⟨[]⟩ 0 with
    | error e =>
      have heq : collectionTryFrom entries b = Except.error e := by
        rw [collectionTryFrom, hw]
      rw [heq] at h
      cases h
    | ok p =>
      obtain ⟨c', tot⟩ := p
      have heq : collectionTryFrom entries b =
          if tot = 0 then Except.error CollectionError.documentsNotFound
          else Except.ok c' := by
        rw [collectionTryFrom, hw]
      rw [heq] at h
      by_cases ht : tot = 0
      · rw [if_pos ht] at h
        cases h
      · rw [if_neg ht] at h
        injection h with h'
        have htot := loadWalk_ok_total hw
        have hz : totalDocuments (⟨[]⟩ : Collection) = 0 := rfl
        rw [← h']
        omega
  · intro entries hg
    obtain ⟨c, hc⟩ := loadWalk_true_ok entries ⟨[]⟩ 0
    have heq : collectionTryFrom entries true =
        if 0 + goodCount entries = 0 then Except.error CollectionError.documentsNotFound
        else Except.ok c := by
      rw [collectionTryFrom, hc]
    rw [heq, hg, if_pos rfl]
  · intro entries hg hgood
    obtain ⟨c, hc⟩ := loadWalk_all_good_ok ⟨[]⟩ 0 hgood
    have heq : collectionTryFrom entries false =
        if 0 + goodCount entries = 0 then Except.error CollectionError.documentsNotFound
        else Except.ok c := by
      rw [collectionTryFrom, hc]
    rw [heq, hg, if_pos rfl]

/-- C7 (witness): a walk meeting only one qualifying file, whose parse
fails, still ends in `DocumentsNotFound` under `ignoreBad = true`. -/
theorem C7_no_documents_error_witness :
    collectionTryFrom [feBad, feTxt, feHidden] true =
      Except.error CollectionError.documentsNotFound :=
  C7_no_documents_error.2.1 [feBad, feTxt, feHidden] (by decide)

/-- C8: on a per-file parse failure, `ignoreBad = false` aborts the whole
load at the first failing qualifying file, surfacing that file's error;
`ignoreBad = true` skips failing files and the load succeeds whenever at
least one qualifying file parses. -/
theorem C8_ignore_bad_policy :
    (∀ (pre : List FileEntry) (e : FileEntry) (post : List FileEntry)
      (err : DocumentError),
      (∀ x ∈ pre, isDefFileName x.fname = true → x.parsed.toBool = true) →
      isDefFileName e.fname = true → e.parsed = Except.error err →
      collectionTryFrom (pre ++ e :: post) false =
        Except.error (CollectionError.documentError err)) ∧
    (∀ entries : List FileEntry, 1 ≤ goodCount entries →
      ∃ c, collectionTryFrom entries true = Except.ok c) := by
  refine ⟨?_, ?_⟩
  · intro pre e post err hgood hq herr
    have hw := @loadWalk_first_bad pre e post ⟨[]⟩ 0 err hgood hq herr
    rw [collectionTryFrom, hw]
  · intro entries hg
    obtain ⟨c, hc⟩ := loadWalk_true_ok entries ⟨[]⟩ 0
    have heq : collectionTryFrom entries true =
        if 0 + goodCount entries = 0 then Except.error CollectionError.documentsNotFound
        else Except.ok c := by
      rw [collectionTryFrom, hc]
    refine ⟨c, ?_⟩
    rw [heq, if_neg (by omega)]

/-- C8 (witness): the abort branch applied to a good file followed by a
corrupt one: the load with `ignoreBad = false` surfaces the corrupt
file's parse error. -/
theorem C8_ignore_bad_policy_witness :
    collectionTryFrom ([feGood] ++ feBad :: []) false =
      Except.error (CollectionError.documentError
        (DocumentError.parseError (lit "bad"))) :=
  C8_ignore_bad_policy.1 [feGood] feBad [] (DocumentError.parseError (lit "bad"))
    (by decide) (by decide) rfl

/-- C9: merge-mode merging follows JSON merge-patch semantics rather than
plain object union: a null-valued field in an override removes that key
from the accumulated result, and a non-object override value replaces the
accumulated result wholesale; both behaviors are visible through
`get_value` on merge-mode documents. -/
theorem C9_merge_patch_semantics :
    (∀ (bf : PVFields) (k : Str),
      mergePatch (ParamValue.obj bf)
          (ParamValue.obj (PVFields.cons k ParamValue.null PVFields.nil)) =
        ParamValue.obj (objRemove bf k) ∧
      objGet (objRemove bf k) k = none) ∧
    (∀ v p : ParamValue, (∀ pf, p ≠ ParamValue.obj pf) → mergePatch v p = p) ∧
    get_value docC9null attrsK1 =
      some (ParamValue.obj (fieldsOf [(lit "a", ParamValue.num 1)])) ∧
    get_value docC9rep attrsK1 = some (ParamValue.str (lit "s")) := by
  refine ⟨fun bf k => ⟨mergePatch_single_null bf k, objGet_objRemove bf k⟩,
    fun v p h => mergePatch_not_obj v p h, ?_, ?_⟩ <;> decide

/-- C9 (witness): the replace branch applied to a concrete non-object
patch over the empty object. -/
theorem C9_merge_patch_semantics_witness :
    mergePatch emptyObj (ParamValue.str (lit "s")) = ParamValue.str (lit "s") :=
  C9_merge_patch_semantics.2.1 emptyObj (ParamValue.str (lit "s"))
    (fun pf h => ParamValue.noConfusion h)

/-- C10: compare-key construction reads the request only at the exact
(case-sensitive) group attribute names: two requests agreeing on those
names produce the same compare key, an attribute supplied under different
casing (`HostGroup` for group name `hostgroup`) is treated as missing and
contributes an empty value, while matching values are trimmed and
lowercased; group names themselves are lowercased at parse time. -/
theorem C10_case_sensitive_lookup :
    (∀ (a₁ a₂ : List (Str × Str)) (names : List Str) (b : Bool),
      (∀ n ∈ names, hmGet a₁ n = hmGet a₂ n) →
      build_compare_key a₁ names b = build_compare_key a₂ names b) ∧
    build_compare_key [(lit "HostGroup", lit "dev")] [lit "hostgroup"] true =
      some (lit "hostgroup=") ∧
    build_compare_key [(lit "hostgroup", lit " Dev ")] [lit "hostgroup"] true =
      some (lit "hostgroup=dev") ∧
    str2list_of_attrs [lit "HostGroup"] = [[lit "hostgroup"]] := by
  refine ⟨fun a₁ a₂ names b h => build_compare_key_congr h, ?_, ?_, ?_⟩ <;> decide

/-- C10 (witness): the read-only-at-group-names property applied to a
request whose sole entry (`HostGroup`, supplied in the wrong case) is
invisible to the group `[hostgroup]`, making it equivalent to the empty
request. -/
theorem C10_case_sensitive_lookup_witness :
    build_compare_key [(lit "HostGroup", lit "dev")] [lit "hostgroup"] true =
      build_compare_key [] [lit "hostgroup"] true :=
  C10_case_sensitive_lookup.1 [(lit "HostGroup", lit "dev")] [] [lit "hostgroup"] true
    (by decide)
